import Mathlib

/-!
Verification of the productivity scoring and aggregation engine of the
canvas-code-project repository.  The TypeScript source computes with IEEE
doubles; the embedding carries the arithmetic over the rationals, which
represent the decimal literals of the source and the integer results of
JavaScript Math.round exactly.  Calendar dates (ISO YYYY-MM-DD strings in
the source, compared lexicographically, which on such strings agrees with
chronological order) are embedded as whole-day numbers since the epoch;
instants (new Date()) as millisecond counts.
-/

namespace Glow

/-- Task record (src/src/lib/storage.ts, src/types): the fields read by the
functions analyzed here. -/
structure Task where
  title : String
  weight : ℚ
  completionPercent : ℚ
  deriving DecidableEq, Repr

/-- JavaScript Math.round on an exact rational argument: round half toward
positive infinity, i.e. the floor of x + 1/2. -/
def jround (x : ℚ) : ℤ := ⌊x + 1 / 2⌋

/-- Two-decimal rounding as written throughout the source:
Math.round(x * 100) / 100. -/
def round2 (x : ℚ) : ℚ := (jround (x * 100) : ℚ) / 100

/-- Total task weight, as the reduce in the source:
tasks.reduce((sum, task) => sum + task.weight, 0). -/
def sumWeights (tasks : List Task) : ℚ :=
  tasks.foldl (fun s t => s + t.weight) 0

/-- Weighted-completion accumulator of calculateProductivity:
tasks.reduce((sum, task) => sum + (task.weight * task.completionPercent) / 100, 0). -/
def weightedCompletion (tasks : List Task) : ℚ :=
  tasks.foldl (fun s t => s + t.weight * t.completionPercent / 100) 0

/-- calculateProductivity from src/src/lib/storage.ts lines 357-369. -/
def calculateProductivity (tasks : List Task) : ℚ :=
  if tasks.length = 0 then 0
  else if sumWeights tasks = 0 then 0
  else round2 (weightedCompletion tasks / sumWeights tasks * 100)

/-- Productivity formula as the specification states it: 0 on an empty list
or zero total weight, otherwise 100 * Σ(weight_i * completion_i / 100) / Σ(weight_i)
rounded to two decimal places. -/
def productivitySpec (tasks : List Task) : ℚ :=
  if tasks = [] ∨ (tasks.map fun t => t.weight).sum = 0 then 0
  else
    round2 (100 * (tasks.map fun t => t.weight * t.completionPercent / 100).sum /
      (tasks.map fun t => t.weight).sum)

/-- First-element residual correction of normalizeWeights:
normalized[0].weight = Math.round((normalized[0].weight + (100 - newTotal)) * 100) / 100. -/
def fixFirst (newTotal : ℚ) : List Task → List Task
  | [] => []
  | t :: ts => { t with weight := round2 (t.weight + (100 - newTotal)) } :: ts

/-- normalizeWeights from src/src/lib/storage.ts lines 372-395. -/
def normalizeWeights (tasks : List Task) : List Task :=
  if sumWeights tasks = 0 then
    tasks.map fun t => { t with weight := round2 (100 / (tasks.length : ℚ)) }
  else if sumWeights tasks = 100 then tasks
  else
    let normalized :=
      tasks.map fun t => { t with weight := round2 (t.weight * (100 / sumWeights tasks)) }
    if sumWeights normalized ≠ 100 ∧ 0 < normalized.length then
      fixFirst (sumWeights normalized) normalized
    else normalized

theorem foldl_add_eq {α : Type} (g : α → ℚ) (l : List α) (a : ℚ) :
    l.foldl (fun s t => s + g t) a = a + (l.map g).sum := by
  induction l generalizing a with
  | nil => simp
  | cons t ts ih => simp [ih, add_assoc]

theorem sumWeights_eq (l : List Task) : sumWeights l = (l.map fun t => t.weight).sum := by
  simpa using foldl_add_eq (fun t => t.weight) l 0

theorem weightedCompletion_eq (l : List Task) :
    weightedCompletion l = (l.map fun t => t.weight * t.completionPercent / 100).sum := by
  simpa using foldl_add_eq (fun t => t.weight * t.completionPercent / 100) l 0

theorem sumWeights_cons (t : Task) (l : List Task) :
    sumWeights (t :: l) = t.weight + sumWeights l := by
  simp [sumWeights_eq]

/-- Integer multiples of one hundredth: exactly the values two-decimal
rounding produces. -/
def IsCent (x : ℚ) : Prop := ∃ k : ℤ, x = (k : ℚ) / 100

theorem isCent_round2 (x : ℚ) : IsCent (round2 x) := ⟨jround (x * 100), rfl⟩

theorem isCent_add {x y : ℚ} : IsCent x → IsCent y → IsCent (x + y)
  | ⟨a, ha⟩, ⟨b, hb⟩ => ⟨a + b, by rw [ha, hb]; push_cast; ring⟩

theorem isCent_hundred : IsCent 100 := ⟨10000, by norm_num⟩

theorem isCent_zero : IsCent 0 := ⟨0, by norm_num⟩

theorem isCent_sub {x y : ℚ} : IsCent x → IsCent y → IsCent (x - y)
  | ⟨a, ha⟩, ⟨b, hb⟩ => ⟨a - b, by rw [ha, hb]; push_cast; ring⟩

theorem isCent_sumWeights {l : List Task} (h : ∀ t ∈ l, IsCent t.weight) :
    IsCent (sumWeights l) := by
  induction l with
  | nil => simpa [sumWeights] using isCent_zero
  | cons t ts ih =>
      rw [sumWeights_cons]
      exact isCent_add (h t (by simp)) (ih fun x hx => h x (by simp [hx]))

theorem round2_eq_self {x : ℚ} (h : IsCent x) : round2 x = x := by
  obtain ⟨k, rfl⟩ := h
  unfold round2 jround
  rw [show (k : ℚ) / 100 * 100 = (k : ℚ) by field_simp]
  rw [show (k : ℚ) + 1 / 2 = ((k : ℤ) : ℚ) + 1 / 2 by norm_num, Int.floor_int_add]
  norm_num

theorem sumWeights_fixFirst {l : List Task} (hl : l ≠ [])
    (hc : ∀ t ∈ l, IsCent t.weight) :
    sumWeights (fixFirst (sumWeights l) l) = 100 := by
  cases l with
  | nil => exact absurd rfl hl
  | cons t ts =>
      have hts : IsCent (sumWeights ts) :=
        isCent_sumWeights fun x hx => hc x (by simp [hx])
      have ht : IsCent t.weight := hc t (by simp)
      have harg : IsCent (t.weight + (100 - sumWeights (t :: ts))) := by
        rw [sumWeights_cons]
        exact isCent_add ht (isCent_sub isCent_hundred (isCent_add ht hts))
      show sumWeights ({ t with weight := round2 (t.weight + (100 - sumWeights (t :: ts))) } :: ts) = 100
      rw [sumWeights_cons, round2_eq_self harg]
      simp only [sumWeights_cons]
      ring

/-- C1: for every task list, calculateProductivity returns 0 on an empty list
or zero total weight and otherwise returns
100 * Σ(weight_i * completionPercent_i / 100) / Σ(weight_i) rounded to two
decimal places; on the two-task list [{weight 60, completion 100},
{weight 40, completion 50}] it returns exactly 80.00. -/
theorem calculateProductivity_correct :
    (∀ tasks : List Task, calculateProductivity tasks = productivitySpec tasks) ∧
    calculateProductivity [⟨"A", 60, 100⟩, ⟨"B", 40, 50⟩] = 80 := by
  constructor
  · intro tasks
    unfold calculateProductivity productivitySpec
    rcases eq_or_ne tasks [] with h | h
    · subst h; simp
    · have hlen : ¬ tasks.length = 0 := by
        simpa using fun hl => h (List.length_eq_zero.mp hl)
      rw [if_neg hlen, sumWeights_eq]
      by_cases hz : (tasks.map fun t => t.weight).sum = 0
      · simp [hz]
      · rw [if_neg hz, if_neg (by push_neg; exact ⟨h, hz⟩), weightedCompletion_eq]
        congr 1
        ring
  · norm_num [calculateProductivity, sumWeights, weightedCompletion, round2, jround]

/-- C3 amended: for every non-empty task list, when the input weights sum to 0
every output weight of normalizeWeights is 100/count rounded to two decimal
places (and the output total, count times that value, can differ from 100 by
more than 0.01); when the input weights have nonzero total, the output weights
sum to exactly 100. -/
theorem normalizeWeights_sum (tasks : List Task) (h : tasks ≠ []) :
    (sumWeights tasks ≠ 0 → sumWeights (normalizeWeights tasks) = 100) ∧
    (sumWeights tasks = 0 →
      normalizeWeights tasks =
        tasks.map fun t => { t with weight := round2 (100 / (tasks.length : ℚ)) }) := by
  constructor
  · intro hS0
    by_cases hS100 : sumWeights tasks = 100
    · rw [normalizeWeights, if_neg hS0, if_pos hS100]
      exact hS100
    · rw [normalizeWeights, if_neg hS0, if_neg hS100]
      have hcent : ∀ t ∈ tasks.map fun t =>
          ({ t with weight := round2 (t.weight * (100 / sumWeights tasks)) } : Task),
          IsCent t.weight := by
        intro t ht
        obtain ⟨x, _, rfl⟩ := List.mem_map.mp ht
        exact isCent_round2 _
      by_cases hN :
          sumWeights (tasks.map fun t =>
            ({ t with weight := round2 (t.weight * (100 / sumWeights tasks)) } : Task)) = 100
      · simp only [hN, ne_eq, not_true_eq_false, false_and, if_false]
      · have hne : tasks.map (fun t =>
            ({ t with weight := round2 (t.weight * (100 / sumWeights tasks)) } : Task)) ≠ [] := by
          simpa using h
        have hpos : 0 < (tasks.map fun t =>
            ({ t with weight := round2 (t.weight * (100 / sumWeights tasks)) } : Task)).length :=
          List.length_pos.mpr hne
        simp only [ne_eq, hN, not_false_eq_true, hpos, and_self, if_true]
        exact sumWeights_fixFirst hne hcent
  · intro hS0
    rw [normalizeWeights, if_pos hS0]

/-- C3 witness: the one-task list with weight 50 is non-empty, has nonzero
total weight, and its normalized weights sum to exactly 100. -/
theorem normalizeWeights_sum_witness :
    sumWeights (normalizeWeights [⟨"a", 50, 0⟩]) = 100 :=
  (normalizeWeights_sum [⟨"a", 50, 0⟩] (by simp)).1 (by norm_num [sumWeights])

/-- C3 counterexample: six tasks of weight 0 take the zero-total branch, each
gets weight round2(100/6) = 16.67, and the output weights sum to 100.02, which
is not within 0.01 of 100 — refuting the claimed bound for all non-empty lists. -/
theorem normalizeWeights_sum_cex :
    sumWeights (normalizeWeights (List.replicate 6 ⟨"t", 0, 0⟩)) = 10002 / 100 ∧
    ¬ |sumWeights (normalizeWeights (List.replicate 6 ⟨"t", 0, 0⟩)) - 100| ≤ 1 / 100 := by
  have h : sumWeights (normalizeWeights (List.replicate 6 ⟨"t", 0, 0⟩)) = 10002 / 100 := by
    norm_num [normalizeWeights, sumWeights, round2, jround, List.replicate]
  refine ⟨h, ?_⟩
  rw [h, show (10002 : ℚ) / 100 - 100 = 2 / 100 by norm_num, not_le]
  rw [abs_of_nonneg (by norm_num : (0 : ℚ) ≤ 2 / 100)]
  norm_num

/-- C4 amended: for every non-empty task list whose weights sum to exactly 100,
normalizeWeights returns the task list unchanged. -/
theorem normalizeWeights_unchanged (tasks : List Task) (_hne : tasks ≠ [])
    (h100 : sumWeights tasks = 100) : normalizeWeights tasks = tasks := by
  rw [normalizeWeights, if_neg (by rw [h100]; norm_num), if_pos h100]

/-- C4 witness: a concrete two-task list with weights 60 and 40 is returned
unchanged. -/
theorem normalizeWeights_unchanged_witness :
    normalizeWeights [⟨"a", 60, 0⟩, ⟨"b", 40, 0⟩] = [⟨"a", 60, 0⟩, ⟨"b", 40, 0⟩] :=
  normalizeWeights_unchanged _ (by simp) (by norm_num [sumWeights])

/-- C4 counterexample: the weights 49.95 and 50 sum to 99.95, within 0.1 of
100, yet normalizeWeights rescales them to 49.97 and 50.03 — the source
compares the total to 100 exactly, with no 0.1 tolerance. -/
theorem normalizeWeights_tolerance_cex :
    |sumWeights [⟨"a", 999 / 20, 0⟩, ⟨"b", 50, 0⟩] - 100| ≤ 1 / 10 ∧
    normalizeWeights [⟨"a", 999 / 20, 0⟩, ⟨"b", 50, 0⟩] ≠
      [⟨"a", 999 / 20, 0⟩, ⟨"b", 50, 0⟩] := by
  constructor
  · rw [show sumWeights [⟨"a", 999 / 20, 0⟩, ⟨"b", 50, 0⟩] = 1999 / 20 by
      norm_num [sumWeights]]
    rw [abs_le]
    constructor <;> norm_num
  · intro hcontra
    have : (normalizeWeights [⟨"a", 999 / 20, 0⟩, ⟨"b", 50, 0⟩]).map (fun t => t.weight) =
        [4997 / 100, 5003 / 100] := by
      norm_num [normalizeWeights, sumWeights, round2, jround, fixFirst]
    rw [hcontra] at this
    simp at this
    norm_num at this

/-- Model of the JavaScript String.prototype.trim applied to task titles on
the save path: drop leading and trailing whitespace characters. -/
def jsTrim (s : String) : String :=
  ⟨((s.data.dropWhile Char.isWhitespace).reverse.dropWhile Char.isWhitespace).reverse⟩

/-- Outcome of the synchronous validation on the daily-report save path:
either the save proceeds, or it stops with the thrown or toasted
human-readable message and nothing is stored. -/
inductive SaveResult where
  | ok : SaveResult
  | failed : String → SaveResult
  deriving DecidableEq, Repr

/-- Per-task validation loop of saveReport (src/src/pages/DayReport.tsx lines
77-87): empty-after-trim or over-length title, then completion outside
[0, 100]; the first failing task aborts the save with its message. -/
def validateTasksDayReport : List Task → SaveResult
  | [] => SaveResult.ok
  | t :: ts =>
    if jsTrim t.title = "" ∨ 200 < t.title.length then
      SaveResult.failed "Task titles must be 1-200 characters"
    else if t.completionPercent < 0 ∨ 100 < t.completionPercent then
      SaveResult.failed "Completion must be between 0 and 100%"
    else validateTasksDayReport ts

/-- Per-task validation loop of saveDailyReport (src/src/lib/storage.ts lines
57-67): falsy (empty) or over-length title, weight outside [0, 100],
completion outside [0, 100]. -/
def validateTasksStorage : List Task → SaveResult
  | [] => SaveResult.ok
  | t :: ts =>
    if t.title = "" ∨ 200 < t.title.length then
      SaveResult.failed "Task title must be 1-200 characters"
    else if t.weight < 0 ∨ 100 < t.weight then
      SaveResult.failed "Task weight must be between 0 and 100"
    else if t.completionPercent < 0 ∨ 100 < t.completionPercent then
      SaveResult.failed "Task completion must be between 0 and 100"
    else validateTasksStorage ts

/-- Whole validation run on the daily-report save path: the checks of
saveReport (DayReport.tsx lines 67-105) followed, when they pass, by the
checks of saveDailyReport (storage.ts lines 51-94), which runs before
anything is stored.  The JavaScript guard `notes && notes.length > 5000` is
false for the empty string. -/
def savePathValidate (notes : String) (tasks : List Task) : SaveResult :=
  if notes ≠ "" ∧ 5000 < notes.length then
    SaveResult.failed "Notes must be less than 5000 characters"
  else
    match validateTasksDayReport tasks with
    | SaveResult.failed e => SaveResult.failed e
    | SaveResult.ok =>
      if notes ≠ "" ∧ 5000 < notes.length then
        SaveResult.failed "Notes exceed maximum length of 5000 characters"
      else validateTasksStorage tasks

theorem validateTasksDayReport_ok_iff (tasks : List Task) :
    validateTasksDayReport tasks = SaveResult.ok ↔
      ∀ t ∈ tasks, jsTrim t.title ≠ "" ∧ t.title.length ≤ 200 ∧
        0 ≤ t.completionPercent ∧ t.completionPercent ≤ 100 := by
  induction tasks with
  | nil => simp [validateTasksDayReport]
  | cons t ts ih =>
      simp only [validateTasksDayReport, List.mem_cons]
      by_cases h1 : jsTrim t.title = "" ∨ 200 < t.title.length
      · rw [if_pos h1]
        constructor
        · intro hc; exact SaveResult.noConfusion hc
        · intro hall
          obtain ⟨ha, hb, -, -⟩ := hall t (Or.inl rfl)
          rcases h1 with h | h
          · exact absurd h ha
          · omega
      · rw [if_neg h1]
        push_neg at h1
        by_cases h2 : t.completionPercent < 0 ∨ 100 < t.completionPercent
        · rw [if_pos h2]
          constructor
          · intro hc; exact SaveResult.noConfusion hc
          · intro hall
            obtain ⟨-, -, hc0, hc1⟩ := hall t (Or.inl rfl)
            rcases h2 with h | h
            · exact absurd hc0 (not_le.mpr h)
            · exact absurd hc1 (not_le.mpr h)
        · rw [if_neg h2]
          push_neg at h2
          rw [ih]
          constructor
          · intro hts x hx
            rcases hx with rfl | hx
            · exact ⟨h1.1, h1.2, h2.1, h2.2⟩
            · exact hts x hx
          · intro hall x hx
            exact hall x (Or.inr hx)

theorem validateTasksStorage_ok_iff (tasks : List Task) :
    validateTasksStorage tasks = SaveResult.ok ↔
      ∀ t ∈ tasks, t.title ≠ "" ∧ t.title.length ≤ 200 ∧
        0 ≤ t.weight ∧ t.weight ≤ 100 ∧
        0 ≤ t.completionPercent ∧ t.completionPercent ≤ 100 := by
  induction tasks with
  | nil => simp [validateTasksStorage]
  | cons t ts ih =>
      simp only [validateTasksStorage, List.mem_cons]
      by_cases h1 : t.title = "" ∨ 200 < t.title.length
      · rw [if_pos h1]
        constructor
        · intro hc; exact SaveResult.noConfusion hc
        · intro hall
          obtain ⟨ha, hb, -, -, -, -⟩ := hall t (Or.inl rfl)
          rcases h1 with h | h
          · exact absurd h ha
          · omega
      · rw [if_neg h1]
        push_neg at h1
        by_cases h2 : t.weight < 0 ∨ 100 < t.weight
        · rw [if_pos h2]
          constructor
          · intro hc; exact SaveResult.noConfusion hc
          · intro hall
            obtain ⟨-, -, hw0, hw1, -, -⟩ := hall t (Or.inl rfl)
            rcases h2 with h | h
            · exact absurd hw0 (not_le.mpr h)
            · exact absurd hw1 (not_le.mpr h)
        · rw [if_neg h2]
          push_neg at h2
          by_cases h3 : t.completionPercent < 0 ∨ 100 < t.completionPercent
          · rw [if_pos h3]
            constructor
            · intro hc; exact SaveResult.noConfusion hc
            · intro hall
              obtain ⟨-, -, -, -, hc0, hc1⟩ := hall t (Or.inl rfl)
              rcases h3 with h | h
              · exact absurd hc0 (not_le.mpr h)
              · exact absurd hc1 (not_le.mpr h)
          · rw [if_neg h3]
            push_neg at h3
            rw [ih]
            constructor
            · intro hts x hx
              rcases hx with rfl | hx
              · exact ⟨h1.1, h1.2, h2.1, h2.2, h3.1, h3.2⟩
              · exact hts x hx
            · intro hall x hx
              exact hall x (Or.inr hx)

/-- C2 amended: the daily-report save path succeeds exactly when the notes are
at most 5000 characters and every task has a nonempty (after trim) title of at
most 200 characters, weight in [0, 100] and completion in [0, 100]; it fails
with a human-readable message otherwise.  No condition on the sum of the task
weights appears: the save path never rejects a report whose weights do not sum
to 100. -/
theorem savePathValidate_ok_iff (notes : String) (tasks : List Task) :
    savePathValidate notes tasks = SaveResult.ok ↔
      notes.length ≤ 5000 ∧ ∀ t ∈ tasks,
        jsTrim t.title ≠ "" ∧ t.title.length ≤ 200 ∧
        0 ≤ t.weight ∧ t.weight ≤ 100 ∧
        0 ≤ t.completionPercent ∧ t.completionPercent ≤ 100 := by
  unfold savePathValidate
  by_cases hn : notes ≠ "" ∧ 5000 < notes.length
  · rw [if_pos hn]
    constructor
    · intro hc; exact SaveResult.noConfusion hc
    · rintro ⟨h5, -⟩
      exact absurd h5 (not_le.mpr hn.2)
  · rw [if_neg hn]
    have hn5 : notes.length ≤ 5000 := by
      by_cases he : notes = ""
      · rw [he]; simp
      · push_neg at hn
        exact hn he
    cases hd : validateTasksDayReport tasks with
    | ok =>
        rw [if_neg hn, validateTasksStorage_ok_iff]
        have hday := (validateTasksDayReport_ok_iff tasks).mp hd
        constructor
        · intro hs
          refine ⟨hn5, fun t ht => ?_⟩
          obtain ⟨ha, hb, hc, hd2⟩ := hday t ht
          obtain ⟨-, -, hw0, hw1, -, -⟩ := hs t ht
          exact ⟨ha, hb, hw0, hw1, hc, hd2⟩
        · rintro ⟨-, hall⟩
          intro t ht
          obtain ⟨ha, hb, hw0, hw1, hc, hd2⟩ := hall t ht
          refine ⟨?_, hb, hw0, hw1, hc, hd2⟩
          intro he
          apply ha
          rw [he]
          rfl
    | failed e =>
        constructor
        · intro hc; exact SaveResult.noConfusion hc
        · rintro ⟨-, hall⟩
          have hok : validateTasksDayReport tasks = SaveResult.ok := by
            rw [validateTasksDayReport_ok_iff]
            intro t ht
            obtain ⟨ha, hb, -, -, hc, hd2⟩ := hall t ht
            exact ⟨ha, hb, hc, hd2⟩
          rw [hok] at hd
          exact SaveResult.noConfusion hd

/-- C2 counterexample: a report whose single task has weight 50 — total weight
50, far outside the 0.1 tolerance around 100 — passes every check on the save
path, so it is stored rather than rejected with a validation error. -/
theorem savePathValidate_weightSum_cex :
    ¬ |sumWeights [⟨"Work", 50, 50⟩] - 100| ≤ 1 / 10 ∧
    savePathValidate "" [⟨"Work", 50, 50⟩] = SaveResult.ok := by
  constructor
  · rw [show sumWeights [⟨"Work", 50, 50⟩] = 50 by norm_num [sumWeights], not_le]
    rw [show (50 : ℚ) - 100 = -(50 : ℚ) by norm_num, abs_neg,
      abs_of_nonneg (by norm_num : (0 : ℚ) ≤ 50)]
    norm_num
  · have hday : validateTasksDayReport [⟨"Work", 50, 50⟩] = SaveResult.ok := by
      rw [validateTasksDayReport_ok_iff]
      intro t ht
      simp only [List.mem_singleton] at ht
      subst ht
      exact ⟨by decide, by decide, by norm_num, by norm_num⟩
    have hsto : validateTasksStorage [⟨"Work", 50, 50⟩] = SaveResult.ok := by
      rw [validateTasksStorage_ok_iff]
      intro t ht
      simp only [List.mem_singleton] at ht
      subst ht
      exact ⟨by decide, by decide, by norm_num, by norm_num, by norm_num, by norm_num⟩
    unfold savePathValidate
    rw [if_neg (by simp), hday, if_neg (by simp)]
    exact hsto

/-- C10: normalizeWeights applied to the empty task list returns the empty
list: the zero-total branch is taken (the empty sum of weights is 0) and
mapping the equal-share weight over an empty list yields the empty list, so
the 100/0 division result never appears in the output. -/
theorem normalizeWeights_nil : normalizeWeights [] = [] := by
  norm_num [normalizeWeights, sumWeights]

/-- Daily report as read by the analytics computations: the calendar date as
a whole-day number since the epoch (ISO YYYY-MM-DD strings compare
lexicographically exactly as these day numbers compare numerically, and a
date string parses to the UTC midnight of its day, date * 86400000 ms) and
the cached productivityPercent. -/
structure Report where
  date : ℤ
  productivityPercent : ℚ
  deriving DecidableEq, Repr

/-- Milliseconds per day, the 1000 * 60 * 60 * 24 of the source. -/
def msPerDay : ℤ := 86400000

/-- Productivity accumulator
reports.reduce((sum, r) => sum + r.productivityPercent, 0). -/
def sumProd (reports : List Report) : ℚ :=
  reports.foldl (fun s r => s + r.productivityPercent) 0

theorem sumProd_eq (l : List Report) :
    sumProd l = (l.map fun r => r.productivityPercent).sum := by
  simpa using foldl_add_eq (fun r : Report => r.productivityPercent) l 0

/-- Arithmetic mean of productivityPercent over a report list, the quantity
the specification speaks about. -/
def meanProd (reports : List Report) : ℚ :=
  (reports.map fun r => r.productivityPercent).sum / (reports.length : ℚ)

/-- Day difference Math.floor((currDate - prevDate) / 86400000) between two
parsed report dates (UTC midnights) in the longest-streak loop. -/
def dayDiff (curr prev : ℤ) : ℤ := (curr * msPerDay - prev * msPerDay).fdiv msPerDay

theorem dayDiff_eq (curr prev : ℤ) : dayDiff curr prev = curr - prev := by
  rw [dayDiff, ← sub_mul]
  exact Int.mul_fdiv_cancel _ (by norm_num [msPerDay])

/-- longestStreak loop body (src/src/pages/Analytics.tsx lines 99-114)
carrying the previous report, the running tempStreak and the longest value
seen so far. -/
def longestStreakGo (prev : Report) (tempStreak longest : ℕ) : List Report → ℕ
  | [] => longest
  | r :: rs =>
      if 60 ≤ r.productivityPercent then
        let temp := if dayDiff r.date prev.date ≠ 1 then 1 else tempStreak + 1
        longestStreakGo r temp (max longest temp) rs
      else longestStreakGo r 0 longest rs

/-- Longest streak (Analytics.tsx lines 95-114) over the date-ascending
report list, with the hardcoded threshold 60. -/
def longestStreak : List Report → ℕ
  | [] => 0
  | r :: rs =>
      if 60 ≤ r.productivityPercent then longestStreakGo r 1 (max 0 1) rs
      else longestStreakGo r 0 0 rs

/-- Running-counter stream the claim describes, after the first report: 0 for
a report below the threshold, 1 for a qualifying report whose date is not
exactly one day after the previous report's date, previous counter plus one
otherwise. -/
def streakCountersFrom (prev : Report) (c : ℕ) : List Report → List ℕ
  | [] => []
  | r :: rs =>
      let c2 : ℕ := if r.productivityPercent < 60 then 0
        else if r.date - prev.date ≠ 1 then 1 else c + 1
      c2 :: streakCountersFrom r c2 rs

/-- Running-counter stream over a whole history. -/
def streakCounters : List Report → List ℕ
  | [] => []
  | r :: rs =>
      let c1 : ℕ := if r.productivityPercent < 60 then 0 else 1
      c1 :: streakCountersFrom r c1 rs

/-- Maximum value of the running counter (0 on empty history). -/
def maxStreakCounter (reports : List Report) : ℕ :=
  (streakCounters reports).foldr max 0

theorem longestStreakGo_eq (rs : List Report) :
    ∀ prev temp longest, longestStreakGo prev temp longest rs =
      max longest ((streakCountersFrom prev temp rs).foldr max 0) := by
  induction rs with
  | nil => intro prev temp longest; simp [longestStreakGo, streakCountersFrom]
  | cons r rs ih =>
      intro prev temp longest
      by_cases hq : 60 ≤ r.productivityPercent
      · have hq2 : ¬ r.productivityPercent < 60 := not_lt.mpr hq
        simp only [longestStreakGo, streakCountersFrom, if_pos hq, if_neg hq2,
          dayDiff_eq, List.foldr_cons, ih]
        omega
      · have hq2 : r.productivityPercent < 60 := not_le.mp hq
        simp only [longestStreakGo, streakCountersFrom, if_neg hq, if_pos hq2,
          List.foldr_cons, ih]
        omega

/-- C5: longestStreak over a date-ascending report list with threshold 60
equals the maximum of the running counter described by the claim —
incremented per qualifying report, reset to 1 when a report's date is not
exactly one day after the previous report's, reset to 0 below the threshold;
the history 2024-01-01 (90%), 2024-01-03 (90%) (days 19723 and 19725) yields
a longest streak of 1, and the empty history yields 0. -/
theorem longestStreak_correct :
    (∀ reports : List Report, longestStreak reports = maxStreakCounter reports) ∧
    longestStreak [⟨19723, 90⟩, ⟨19725, 90⟩] = 1 ∧
    longestStreak [] = 0 := by
  refine ⟨?_, ?_, rfl⟩
  · intro reports
    cases reports with
    | nil => rfl
    | cons r rs =>
        rw [maxStreakCounter]
        by_cases hq : 60 ≤ r.productivityPercent
        · have hq2 : ¬ r.productivityPercent < 60 := not_lt.mpr hq
          simp only [longestStreak, streakCounters, if_pos hq, if_neg hq2,
            List.foldr_cons, longestStreakGo_eq]
          omega
        · have hq2 : r.productivityPercent < 60 := not_le.mp hq
          simp only [longestStreak, streakCounters, if_neg hq, if_pos hq2,
            List.foldr_cons, longestStreakGo_eq]
  · norm_num [longestStreak, longestStreakGo, dayDiff_eq]

/-- currentStreak loop (Analytics.tsx lines 83-93): today is the wall-clock
instant new Date() in milliseconds; each report date parses to the UTC
midnight of its day. -/
def currentStreakGo (todayMs : ℤ) : List Report → ℕ → ℕ → ℕ
  | [], _, acc => acc
  | r :: rs, i, acc =>
      if (todayMs - r.date * msPerDay).fdiv msPerDay = (i : ℤ) ∧
          60 ≤ r.productivityPercent then
        currentStreakGo todayMs rs (i + 1) (acc + 1)
      else acc

/-- currentStreak (Analytics.tsx lines 82-93) over the date-descending report
list, with the hardcoded threshold 60. -/
def currentStreak (todayMs : ℤ) (reports : List Report) : ℕ :=
  currentStreakGo todayMs reports 0 0

/-- Whole-day difference Math.floor((today - reportDate) / 86400000) spoken
about by the claim. -/
def daysBetween (todayMs dateDay : ℤ) : ℤ :=
  (todayMs - dateDay * msPerDay).fdiv msPerDay

/-- Position-indexed in-streak condition of the claim: the whole-day
difference between today and the report's date equals the position and the
report scores at least the threshold. -/
def inStreak (todayMs : ℤ) (p : ℕ × Report) : Bool :=
  decide (daysBetween todayMs p.2.date = (p.1 : ℤ)) &&
    decide (60 ≤ p.2.productivityPercent)

/-- Length of the initial run of position-indexed in-streak reports — the
claim's characterization of the current streak. -/
def currentStreakSpec (todayMs : ℤ) (reports : List Report) : ℕ :=
  ((reports.enum).takeWhile (inStreak todayMs)).length

theorem currentStreakGo_eq (todayMs : ℤ) (rs : List Report) :
    ∀ i acc, currentStreakGo todayMs rs i acc =
      acc + ((List.enumFrom i rs).takeWhile (inStreak todayMs)).length := by
  induction rs with
  | nil => intro i acc; simp [currentStreakGo]
  | cons r rs ih =>
      intro i acc
      by_cases hc : (todayMs - r.date * msPerDay).fdiv msPerDay = (i : ℤ) ∧
          60 ≤ r.productivityPercent
      · have hb : inStreak todayMs (i, r) = true := by
          simp only [inStreak, daysBetween, Bool.and_eq_true, decide_eq_true_eq]
          exact hc
        simp only [currentStreakGo, if_pos hc, List.enumFrom, List.takeWhile_cons, hb,
          if_true, List.length_cons, ih]
        omega
      · have hb : ¬ inStreak todayMs (i, r) = true := by
          simp only [inStreak, daysBetween, Bool.and_eq_true, decide_eq_true_eq]
          exact hc
        simp only [currentStreakGo, if_neg hc, List.enumFrom, List.takeWhile_cons,
          if_neg hb, List.length_nil]
        omega

/-- C6: currentStreak over a date-descending report list counts reports from
position 0 upward while the whole-day difference between today and the
report's date equals the position and productivityPercent is at least 60,
stopping at the first failure; with today an instant of 2024-01-05 (noon UTC)
and the most recent report dated 2024-01-03 at 90% the streak is 0, and the
empty history gives 0. -/
theorem currentStreak_correct :
    (∀ (todayMs : ℤ) (reports : List Report),
      currentStreak todayMs reports = currentStreakSpec todayMs reports) ∧
    currentStreak (19727 * msPerDay + 43200000) [⟨19725, 90⟩] = 0 ∧
    (∀ todayMs : ℤ, currentStreak todayMs [] = 0) := by
  refine ⟨?_, ?_, fun _ => rfl⟩
  · intro todayMs reports
    rw [currentStreak, currentStreakGo_eq, Nat.zero_add]
    rfl
  · have hc : ¬ (((19727 * msPerDay + 43200000 : ℤ) -
        (⟨19725, 90⟩ : Report).date * msPerDay).fdiv msPerDay = ((0 : ℕ) : ℤ) ∧
        (60 : ℚ) ≤ (⟨19725, 90⟩ : Report).productivityPercent) := by
      rintro ⟨h0, -⟩
      exact absurd h0 (by decide)
    rw [currentStreak]
    simp only [currentStreakGo]
    rw [if_neg hc]

/-- Result record of the improvement-trend computation. -/
structure TrendResult where
  change : ℚ
  improving : Bool
  deriving DecidableEq, Repr

/-- improvementTrend from src/src/pages/Insights.tsx lines 87-93 over the
date-descending report list: null below 14 reports, otherwise the slice(0,7)
average minus the slice(-7) average, with the strict improving flag.
slice(-7) on a list of at least 14 elements is drop (length - 7); slice(0, 7)
is take 7. -/
def improvementTrend (reports : List Report) : Option TrendResult :=
  if reports.length < 14 then none
  else
    some { change := sumProd (reports.take 7) / 7 -
             sumProd (reports.drop (reports.length - 7)) / 7,
           improving := decide (0 < sumProd (reports.take 7) / 7 -
             sumProd (reports.drop (reports.length - 7)) / 7) }

/-- C7: the improvement trend is null whenever fewer than 14 reports are
loaded; with at least 14, the change equals the mean productivityPercent of
the 7 most recent reports minus the mean of the 7 oldest loaded reports, and
improving holds exactly when the change is strictly positive. -/
theorem improvementTrend_correct (reports : List Report) :
    (reports.length < 14 → improvementTrend reports = none) ∧
    (14 ≤ reports.length →
      improvementTrend reports =
        some { change := meanProd (reports.take 7) -
                 meanProd (reports.drop (reports.length - 7)),
               improving := decide (0 < meanProd (reports.take 7) -
                 meanProd (reports.drop (reports.length - 7))) }) := by
  constructor
  · intro h
    rw [improvementTrend, if_pos h]
  · intro h
    have h1 : (reports.take 7).length = 7 := by rw [List.length_take]; omega
    have h2 : (reports.drop (reports.length - 7)).length = 7 := by
      rw [List.length_drop]; omega
    have e1 : meanProd (reports.take 7) = sumProd (reports.take 7) / 7 := by
      rw [meanProd, sumProd_eq, h1]; norm_num
    have e2 : meanProd (reports.drop (reports.length - 7)) =
        sumProd (reports.drop (reports.length - 7)) / 7 := by
      rw [meanProd, sumProd_eq, h2]; norm_num
    rw [improvementTrend, if_neg (not_lt.mpr h), e1, e2]

/-- C7 witness: fourteen reports — the seven most recent at 80%, the seven
oldest at 70% — produce change 10 and improving true. -/
theorem improvementTrend_correct_witness :
    improvementTrend
      [⟨19730, 80⟩, ⟨19729, 80⟩, ⟨19728, 80⟩, ⟨19727, 80⟩, ⟨19726, 80⟩,
       ⟨19725, 80⟩, ⟨19724, 80⟩, ⟨19723, 70⟩, ⟨19722, 70⟩, ⟨19721, 70⟩,
       ⟨19720, 70⟩, ⟨19719, 70⟩, ⟨19718, 70⟩, ⟨19717, 70⟩] =
      some { change := 10, improving := true } := by
  have h := (improvementTrend_correct
      [⟨19730, 80⟩, ⟨19729, 80⟩, ⟨19728, 80⟩, ⟨19727, 80⟩, ⟨19726, 80⟩,
       ⟨19725, 80⟩, ⟨19724, 80⟩, ⟨19723, 70⟩, ⟨19722, 70⟩, ⟨19721, 70⟩,
       ⟨19720, 70⟩, ⟨19719, 70⟩, ⟨19718, 70⟩, ⟨19717, 70⟩]).2 (by simp)
  rw [h]
  norm_num [meanProd]

/-- Week average sumProd(week)/7 computed by the best-week loop for the
window slice(i, i+7) of the date-descending report list. -/
def weekAvg (reports : List Report) (i : ℕ) : ℚ :=
  sumProd ((reports.drop i).take 7) / 7

/-- One step of the best-week loop (Analytics.tsx lines 119-125): strict
improvement updates the best average and records
weekReports[weekReports.length - 1].date — the last element of the
descending 7-report slice. -/
def bestWeekStep (reports : List Report) (acc : ℚ × Option ℤ) (i : ℕ) : ℚ × Option ℤ :=
  if acc.1 < weekAvg reports i then
    (weekAvg reports i, ((reports.drop i).take 7).getLast?.map fun r => r.date)
  else acc

/-- Best-week computation (Analytics.tsx lines 116-126): the loop index runs
from 0 through reports.length - 7 over the date-descending list; with fewer
than 7 reports the loop body never runs and the initial state (0, no date)
is returned. -/
def bestWeek (reports : List Report) : ℚ × Option ℤ :=
  if reports.length < 7 then (0, none)
  else (List.range (reports.length - 7 + 1)).foldl (bestWeekStep reports) (0, none)

theorem sumProd_nonneg {l : List Report} (h : ∀ r ∈ l, 0 ≤ r.productivityPercent) :
    0 ≤ sumProd l := by
  rw [sumProd_eq]
  apply List.sum_nonneg
  intro x hx
  obtain ⟨r, hr, rfl⟩ := List.mem_map.mp hx
  exact h r hr

theorem weekAvg_eq_meanProd {reports : List Report} {i : ℕ}
    (h : i + 7 ≤ reports.length) :
    weekAvg reports i = meanProd ((reports.drop i).take 7) := by
  have hlen : ((reports.drop i).take 7).length = 7 := by
    rw [List.length_take, List.length_drop]; omega
  rw [weekAvg, meanProd, sumProd_eq, hlen]
  norm_num

theorem foldl_max_init_le {α : Type} [LinearOrder α] (l : List α) (a : α) :
    a ≤ l.foldl max a := by
  induction l generalizing a with
  | nil => simp
  | cons x xs ih => exact le_trans (le_max_left a x) (ih (max a x))

theorem le_foldl_max_of_mem {α : Type} [LinearOrder α] {x : α} {l : List α}
    (hx : x ∈ l) (a : α) : x ≤ l.foldl max a := by
  induction l generalizing a with
  | nil => cases hx
  | cons y ys ih =>
      rcases List.mem_cons.mp hx with rfl | hx2
      · exact le_trans (le_max_right a x) (foldl_max_init_le ys (max a x))
      · exact ih hx2 (max a y)

theorem foldl_max_eq_init_or_mem {α : Type} [LinearOrder α] (l : List α) (a : α) :
    l.foldl max a = a ∨ l.foldl max a ∈ l := by
  induction l generalizing a with
  | nil => exact Or.inl rfl
  | cons x xs ih =>
      rcases ih (max a x) with h | h
      · rcases max_cases a x with ⟨he, -⟩ | ⟨he, -⟩
        · exact Or.inl (by rw [List.foldl_cons, h, he])
        · exact Or.inr (by rw [List.foldl_cons, h, he]; exact List.mem_cons_self x xs)
      · exact Or.inr (by rw [List.foldl_cons]; exact List.mem_cons_of_mem x h)

theorem bestWeekStep_fst (reports : List Report) (acc : ℚ × Option ℤ) (i : ℕ) :
    (bestWeekStep reports acc i).1 = max acc.1 (weekAvg reports i) := by
  rw [bestWeekStep]
  rcases lt_or_le acc.1 (weekAvg reports i) with h | h
  · rw [if_pos h]; exact (max_eq_right h.le).symm
  · rw [if_neg (not_lt.mpr h)]; exact (max_eq_left h).symm

theorem bestWeek_foldl_fst (reports : List Report) (I : List ℕ) :
    ∀ acc : ℚ × Option ℤ, (I.foldl (bestWeekStep reports) acc).1 =
      (I.map (weekAvg reports)).foldl max acc.1 := by
  induction I with
  | nil => intro acc; rfl
  | cons i is ih =>
      intro acc
      rw [List.foldl_cons, List.map_cons, List.foldl_cons, ih, bestWeekStep_fst]

theorem bestWeek_foldl_snd (reports : List Report) :
    ∀ I : List ℕ, (∀ i ∈ I, i + 7 ≤ reports.length) →
    ∀ acc : ℚ × Option ℤ,
      (∀ d, acc.2 = some d → ∃ i, i + 7 ≤ reports.length ∧
        weekAvg reports i = acc.1 ∧
        ((reports.drop i).take 7).getLast?.map (fun r => r.date) = some d) →
      ∀ d, (I.foldl (bestWeekStep reports) acc).2 = some d →
        ∃ i, i + 7 ≤ reports.length ∧
          weekAvg reports i = (I.foldl (bestWeekStep reports) acc).1 ∧
          ((reports.drop i).take 7).getLast?.map (fun r => r.date) = some d := by
  intro I
  induction I with
  | nil => intro hI acc hacc; exact hacc
  | cons i is ih =>
      intro hI acc hacc
      simp only [List.foldl_cons]
      refine ih (fun j hj => hI j (List.mem_cons_of_mem i hj)) _ ?_
      intro d2 hd2
      rw [bestWeekStep] at hd2 ⊢
      rcases lt_or_le acc.1 (weekAvg reports i) with h | h
      · rw [if_pos h] at hd2 ⊢
        exact ⟨i, hI i (List.mem_cons_self i is), rfl, hd2⟩
      · rw [if_neg (not_lt.mpr h)] at hd2 ⊢
        exact hacc d2 hd2

/-- C8 amended: for a history of at least 7 reports with nonnegative
productivity, the best-week average is the maximum arithmetic mean over
every window of exactly 7 consecutive (by position) reports, and whenever a
date is reported alongside, it is the date of the LAST element of a
maximizing descending-order window — the oldest (start) date of that week,
not its most recent end date. -/
theorem bestWeek_correct (reports : List Report) (h7 : 7 ≤ reports.length)
    (hpos : ∀ r ∈ reports, 0 ≤ r.productivityPercent) :
    (∀ i, i + 7 ≤ reports.length →
      meanProd ((reports.drop i).take 7) ≤ (bestWeek reports).1) ∧
    (∃ i, i + 7 ≤ reports.length ∧
      meanProd ((reports.drop i).take 7) = (bestWeek reports).1) ∧
    (∀ d, (bestWeek reports).2 = some d → ∃ i, i + 7 ≤ reports.length ∧
      meanProd ((reports.drop i).take 7) = (bestWeek reports).1 ∧
      ((reports.drop i).take 7).getLast?.map (fun r => r.date) = some d) := by
  have hb : bestWeek reports =
      (List.range (reports.length - 7 + 1)).foldl (bestWeekStep reports) (0, none) := by
    rw [bestWeek, if_neg (not_lt.mpr h7)]
  have hrange : ∀ i ∈ List.range (reports.length - 7 + 1), i + 7 ≤ reports.length := by
    intro i hi
    have := List.mem_range.mp hi
    omega
  have hfst : (bestWeek reports).1 =
      ((List.range (reports.length - 7 + 1)).map (weekAvg reports)).foldl max 0 := by
    rw [hb, bestWeek_foldl_fst]
  have hub : ∀ i, i + 7 ≤ reports.length →
      meanProd ((reports.drop i).take 7) ≤ (bestWeek reports).1 := by
    intro i hi
    rw [← weekAvg_eq_meanProd hi, hfst]
    exact le_foldl_max_of_mem
      (List.mem_map.mpr ⟨i, List.mem_range.mpr (by omega), rfl⟩) 0
  have havg_nonneg : ∀ i, i + 7 ≤ reports.length → 0 ≤ weekAvg reports i := by
    intro i hi
    apply div_nonneg _ (by norm_num)
    apply sumProd_nonneg
    intro r hr
    exact hpos r (List.drop_subset i reports (List.take_subset 7 _ hr))
  refine ⟨hub, ?_, ?_⟩
  · rcases foldl_max_eq_init_or_mem
        ((List.range (reports.length - 7 + 1)).map (weekAvg reports)) 0 with h | h
    · refine ⟨0, by omega, ?_⟩
      have h0le : weekAvg reports 0 ≤ (bestWeek reports).1 := by
        rw [weekAvg_eq_meanProd (by omega : 0 + 7 ≤ reports.length)]
        exact hub 0 (by omega)
      have h0ge : 0 ≤ weekAvg reports 0 := havg_nonneg 0 (by omega)
      rw [← weekAvg_eq_meanProd (by omega : 0 + 7 ≤ reports.length), hfst, h]
      rw [hfst, h] at h0le
      exact le_antisymm h0le h0ge
    · obtain ⟨i, hiR, hEq⟩ := List.mem_map.mp h
      have hi7 : i + 7 ≤ reports.length := hrange i hiR
      refine ⟨i, hi7, ?_⟩
      rw [← weekAvg_eq_meanProd hi7, hfst, hEq]
  · intro d hd
    rw [hb] at hd
    obtain ⟨i, hi7, hEq, hdate⟩ :=
      bestWeek_foldl_snd reports (List.range (reports.length - 7 + 1)) hrange
        (0, none) (by intro x hx; exact absurd hx (by simp)) d hd
    refine ⟨i, hi7, ?_, hdate⟩
    rw [← weekAvg_eq_meanProd hi7, hb, hEq]

/-- Seven consecutive descending-dated reports, 2024-01-07 (day 19729) down
to 2024-01-01 (day 19723), all at 70%. -/
def weekReports7 : List Report :=
  [⟨19729, 70⟩, ⟨19728, 70⟩, ⟨19727, 70⟩, ⟨19726, 70⟩,
   ⟨19725, 70⟩, ⟨19724, 70⟩, ⟨19723, 70⟩]

/-- C8 witness: the seven-report history satisfies both hypotheses, and each
conclusion holds for it under the amended reading. -/
theorem bestWeek_correct_witness :
    (7 : ℕ) ≤ weekReports7.length ∧
    (∀ r ∈ weekReports7, 0 ≤ r.productivityPercent) ∧
    (∀ d, (bestWeek weekReports7).2 = some d → ∃ i, i + 7 ≤ weekReports7.length ∧
      meanProd ((weekReports7.drop i).take 7) = (bestWeek weekReports7).1 ∧
      ((weekReports7.drop i).take 7).getLast?.map (fun r => r.date) = some d) := by
  have hp : ∀ r ∈ weekReports7, 0 ≤ r.productivityPercent := by
    intro r hr
    simp only [weekReports7, List.mem_cons, List.not_mem_nil, or_false] at hr
    rcases hr with rfl | rfl | rfl | rfl | rfl | rfl | rfl <;> norm_num
  exact ⟨by simp [weekReports7], hp,
    (bestWeek_correct weekReports7 (by simp [weekReports7]) hp).2.2⟩

/-- C8 counterexample: for the seven-report descending history all at 70%,
the only 7-report window is the whole list, whose most recent (end) date is
19729 (2024-01-07); the claim says that date is reported, but the code
records weekReports[weekReports.length - 1].date — the oldest date 19723
(2024-01-01) of the window. -/
theorem bestWeek_date_cex :
    (bestWeek weekReports7).1 = 70 ∧
    (bestWeek weekReports7).2 = some 19723 ∧
    weekReports7.head?.map (fun r => r.date) = some 19729 ∧
    (19723 : ℤ) ≠ 19729 := by
  have hb : bestWeek weekReports7 = (70, some 19723) := by
    norm_num [bestWeek, bestWeekStep, weekAvg, sumProd, weekReports7, List.range_succ]
  rw [hb]
  norm_num [weekReports7]

/-- Productivity-goal fields read by goalProgress. -/
structure Goal where
  targetPercentage : ℚ
  startDate : ℤ
  endDate : ℤ
  deriving DecidableEq, Repr

/-- Date-range test of the goalProgress filter: string comparison on ISO
YYYY-MM-DD dates in the source, equivalently numeric comparison on day
numbers. -/
def inGoalRange (goal : Goal) (r : Report) : Prop :=
  goal.startDate ≤ r.date ∧ r.date ≤ goal.endDate

instance (goal : Goal) (r : Report) : Decidable (inGoalRange goal r) := by
  unfold inGoalRange
  infer_instance

/-- goalProgress entry (Analytics.tsx lines 205-211) for one goal: inclusive
date-range filter, average productivity with 0 default on an empty range,
daysLeft = Math.ceil((endDate midnight - now) / 86400000) computed exactly,
isActive = daysLeft >= 0. -/
def goalProgress (todayMs : ℤ) (goal : Goal) (reports : List Report) : ℚ × ℤ × Bool :=
  let relevant := reports.filter fun r => decide (inGoalRange goal r)
  let avgProgress := if 0 < relevant.length then sumProd relevant / (relevant.length : ℚ) else 0
  let daysLeft : ℤ := ⌈((goal.endDate * msPerDay - todayMs : ℤ) : ℚ) / (msPerDay : ℚ)⌉
  (avgProgress, daysLeft, decide (0 ≤ daysLeft))

/-- C9: goalProgress averages productivityPercent over exactly the reports
satisfying goal.startDate ≤ date ≤ goal.endDate (a report dated exactly the
end date satisfies the range whenever the range is nonempty, and a report
dated one day after never does), returns average 0 when no report is in
range, and sets daysLeft to the ceiling of (endDate - today)/one day with
isActive exactly when daysLeft ≥ 0. -/
theorem goalProgress_correct (todayMs : ℤ) (goal : Goal) (reports : List Report) :
    ((goalProgress todayMs goal reports).1 =
      if (reports.filter fun r => decide (inGoalRange goal r)) = [] then 0
      else meanProd (reports.filter fun r => decide (inGoalRange goal r))) ∧
    (∀ r : Report, r ∈ reports.filter (fun r => decide (inGoalRange goal r)) ↔
      r ∈ reports ∧ goal.startDate ≤ r.date ∧ r.date ≤ goal.endDate) ∧
    (∀ r : Report, r.date = goal.endDate → goal.startDate ≤ goal.endDate →
      inGoalRange goal r) ∧
    (∀ r : Report, r.date = goal.endDate + 1 → ¬ inGoalRange goal r) ∧
    ((goalProgress todayMs goal reports).2.1 =
      ⌈((goal.endDate * msPerDay - todayMs : ℤ) : ℚ) / (msPerDay : ℚ)⌉) ∧
    ((goalProgress todayMs goal reports).2.2 = true ↔
      0 ≤ (goalProgress todayMs goal reports).2.1) := by
  refine ⟨?_, ?_, ?_, ?_, rfl, ?_⟩
  · simp only [goalProgress]
    rcases eq_or_ne (reports.filter fun r => decide (inGoalRange goal r)) [] with he | he
    · rw [he]
      simp
    · have hl : 0 < (reports.filter fun r => decide (inGoalRange goal r)).length :=
        List.length_pos.mpr he
      rw [if_pos hl, if_neg he, meanProd, sumProd_eq]
  · intro r
    simp [List.mem_filter, inGoalRange]
  · intro r hend hse
    rw [inGoalRange, hend]
    exact ⟨hse, le_refl _⟩
  · intro r hend
    rw [inGoalRange, hend]
    rintro ⟨-, h2⟩
    omega
  · simp [goalProgress]

/-- C9 witness: a goal window over days 19723..19725 with reports dated
19726 (one past the end, excluded, at 20%) and 19725 (the end date itself,
included, at 80%) averages exactly 80, and from noon of day 19723 the goal
has a positive number of days left, hence is active. -/
theorem goalProgress_correct_witness :
    (goalProgress (19723 * msPerDay + 43200000) ⟨50, 19723, 19725⟩
      [⟨19726, 20⟩, ⟨19725, 80⟩]).1 = 80 ∧
    (goalProgress (19723 * msPerDay + 43200000) ⟨50, 19723, 19725⟩
      [⟨19726, 20⟩, ⟨19725, 80⟩]).2.2 = true := by
  have h := goalProgress_correct (19723 * msPerDay + 43200000) ⟨50, 19723, 19725⟩
    [⟨19726, 20⟩, ⟨19725, 80⟩]
  have hfil : ([⟨19726, 20⟩, ⟨19725, 80⟩] : List Report).filter
      (fun r => decide (inGoalRange ⟨50, 19723, 19725⟩ r)) = [⟨19725, 80⟩] := by
    simp [List.filter, inGoalRange]
  constructor
  · rw [h.1, hfil]
    norm_num [meanProd]
  · rw [h.2.2.2.2.2, h.2.2.2.2.1]
    rw [show ((⟨50, 19723, 19725⟩ : Goal).endDate * msPerDay -
        (19723 * msPerDay + 43200000) : ℤ) = 129600000 by norm_num [msPerDay]]
    rw [show ((129600000 : ℤ) : ℚ) / ((msPerDay : ℤ) : ℚ) = 3 / 2 by
      norm_num [msPerDay]]
    rw [show (⌈(3 / 2 : ℚ)⌉ : ℤ) = 2 by rw [Int.ceil_eq_iff]; norm_num]
    norm_num

end Glow
